import Mathlib

/-!
Shallow embedding of `src/app.py` (a five-step book digitisation pipeline:
page images → OCR records → combined text → translated text → PDFs), together
with proofs about the pieces of logic it contains:

* `combine_text_with_continuity` (lines 58–71): the continuity joiner;
* the fixed-size chunking and translation loop of `translate_text`
  (lines 73–87), instrumented with its backend calls and progress reports;
* the OCR loop `process_all_images` (lines 43–56), instrumented with its
  progress-bar events;
* the image-file enumeration of `main` (lines 138–143);
* the persistence behaviour of the translation step of `main`
  (lines 191–210).

Strings are modelled as `List Char` (Python strings are sequences of code
points, and Lean `Char` equality/order is code-point equality/order, matching
Python's `==` and `<` on one-character strings).
-/

/-- Python `str.strip()` whitespace test, for the ASCII whitespace characters
(the texts handled by the pipeline; `str.strip()` also strips other Unicode
whitespace, which no claim here depends on). -/
def isPySpace (c : Char) : Bool :=
  c = ' ' || c = '\t' || c = '\n' || c = '\r' || c = '\x0b' || c = '\x0c'

/-- Python `str.strip()`: remove leading and trailing whitespace. -/
def pyStrip (s : List Char) : List Char :=
  ((s.dropWhile isPySpace).reverse.dropWhile isPySpace).reverse

/-- One OCR record, the dict `{'page': idx + 1, 'filename': ..., 'text': ...}`
built by `process_all_images` (lines 50–54). -/
structure OcrRec where
  page : Nat
  filename : String
  text : List Char
deriving DecidableEq

/-- The characters of the string literal `'.!?。'` on line 66 of `app.py`. -/
def sentencePunct : List Char := ['.', '!', '?', '。']

/-- The test on line 66: `if combined and not combined[-1] in '.!?。'` —
the accumulator is non-empty and its last character is not sentence-terminal
punctuation. -/
def needsSpace (combined : List Char) : Bool :=
  match combined.getLast? with
  | none => false
  | some c => !(decide (c ∈ sentencePunct))

/-- The loop body of `combine_text_with_continuity` (lines 62–69): strip the
record's text, insert `" "` when `needsSpace`, then append the stripped text. -/
def combineStep (combined : List Char) (page : OcrRec) : List Char :=
  (if needsSpace combined then combined ++ [' '] else combined) ++ pyStrip page.text

/-- `combine_text_with_continuity` (app.py lines 58–71). -/
def combine_text_with_continuity (pages_data : List OcrRec) : List Char :=
  pages_data.foldl combineStep []

/-- The same fold over bare texts; used to show the combined document depends
only on the `text` fields of the records. -/
def combineTexts (texts : List (List Char)) : List Char :=
  texts.foldl
    (fun combined t =>
      (if needsSpace combined then combined ++ [' '] else combined) ++ pyStrip t) []

/-- A text ends in one of the sentence-terminal punctuation marks. -/
def endsInPunctB (t : List Char) : Bool :=
  match t.getLast? with
  | none => false
  | some c => decide (c ∈ sentencePunct)

/-- The chunk list comprehension of `translate_text` (line 77):
`[text[i:i+chunk_size] for i in range(0, len(text), chunk_size)]`, parametric
in the chunk size.  `range(0, n, k)` with `k > 0` yields the `⌈n / k⌉` offsets
`0, k, 2k, …`, and `text[i:i+k]` is `(s.drop i).take k`. -/
def pythonChunks (k : Nat) (s : List Char) : List (List Char) :=
  (List.range ((s.length + k - 1) / k)).map (fun j => (s.drop (j * k)).take k)

/-- `chunk_size` from line 76 of `app.py`. -/
def chunk_size : Nat := 5000

/-- Python `" ".join(ts)`. -/
def joinSp (ts : List (List Char)) : List Char := List.intercalate [' '] ts

/-- Observable outcome of one `translate_text` call: the returned string or
the propagated backend exception, the chunks sent to the backend in order,
and the fractional progress values reported in order. -/
structure TranslateRun (E : Type) where
  result : Except E (List Char)
  calls : List (List Char)
  progress : List ℚ

/-- The loop of `translate_text` (lines 79–87).  For each chunk, the progress
callback fires first with `(idx + 1) / len(chunks)`, then the backend is
called; an exception from the backend propagates immediately, otherwise the
translated chunk is accumulated and, after the loop, the accumulated chunks
are joined with `" ".join`. -/
def translateGo (E : Type) (f : List Char → Except E (List Char)) (n : Nat) :
    List (List Char) → Nat → List (List Char) → List ℚ → List (List Char) →
      TranslateRun E
  | [], _, acc, progs, calls => ⟨Except.ok (joinSp acc), calls, progs⟩
  | c :: cs, idx, acc, progs, calls =>
    let progs := progs ++ [(((idx + 1 : Nat) : ℚ) / (n : ℚ))]
    let calls := calls ++ [c]
    match f c with
    | Except.error e => ⟨Except.error e, calls, progs⟩
    | Except.ok t => translateGo E f n cs (idx + 1) (acc ++ [t]) progs calls

/-- `translate_text` (app.py lines 73–87), with the translation backend
modelled as a fallible function `f` and the interactions recorded. -/
def translate_text (E : Type) (f : List Char → Except E (List Char))
    (text : List Char) : TranslateRun E :=
  let chunks := pythonChunks chunk_size text
  translateGo E f chunks.length chunks 0 [] [] []

/-- The translation step of `main` (lines 191–210): combine the loaded OCR
records, run `translate_text`, and write `output/translation.txt` only when
the call returns normally (the `open`/`write` on lines 206–208 sits after the
`translate_text` call, so a propagated exception aborts the step before any
write).  The value is the content of the written file, or `none` when nothing
was written. -/
def translationStage (E : Type) (f : List Char → Except E (List Char))
    (ocr_results : List OcrRec) : Option (List Char) :=
  (translate_text E f (combine_text_with_continuity ocr_results)).result.toOption

/-- Events observable during `process_all_images`: a progress-bar report and
the completion of the OCR call on one page. -/
inductive PageEv where
  | progress (value : ℚ)
  | extract (filename : String)
deriving DecidableEq

/-- The loop of `process_all_images` (lines 47–54): for each file, the
progress bar is updated to `(idx + 1) / len(image_files)` first, then
`ocr_image` runs, then the record is appended. -/
def processGo (ocr : String → List Char) (n : Nat) :
    List String → Nat → List OcrRec → List PageEv → List OcrRec × List PageEv
  | [], _, all_text, evs => (all_text, evs)
  | img :: rest, idx, all_text, evs =>
    let evs := evs ++ [PageEv.progress (((idx + 1 : Nat) : ℚ) / (n : ℚ))]
    let text := ocr img
    let evs := evs ++ [PageEv.extract img]
    processGo ocr n rest (idx + 1) (all_text ++ [⟨idx + 1, img, text⟩]) evs

/-- `process_all_images` (app.py lines 43–56) with its event trace, the OCR
backend modelled as a function from filename to extracted text. -/
def process_all_images (ocr : String → List Char) (image_files : List String) :
    List OcrRec × List PageEv :=
  processGo ocr image_files.length image_files 0 [] []

/-- Formalisation of the wording of claim C9: every progress report `k / n`
appears in the trace strictly after the extraction of page `k` has completed
(`k` ranges over `1 … n`, here via the 0-based index into `image_files`). -/
def reportsAfterExtraction (image_files : List String) (evs : List PageEv) : Prop :=
  ∀ k : Fin image_files.length, ∃ i j : Fin evs.length, (i : Nat) < (j : Nat) ∧
    evs.get i = PageEv.extract (image_files.get k) ∧
    evs.get j = PageEv.progress ((((k : Nat) + 1 : Nat) : ℚ) / (image_files.length : ℚ))

/-- Code-point lexicographic comparison of strings, as Python `sorted` uses
on `str` (and hence on `Path`s within one directory). -/
def lexLe : List Char → List Char → Bool
  | [], _ => true
  | _ :: _, [] => false
  | a :: as, b :: bs => if a < b then true else if b < a then false else lexLe as bs

/-- Filename order used by the `sorted(...)` call on line 138. -/
def fnameLe (a b : String) : Prop := lexLe a.data b.data = true

instance : DecidableRel fnameLe :=
  fun a b => (inferInstance : Decidable (lexLe a.data b.data = true))

/-- The six glob patterns of `main`, lines 138–143.  `pathlib.Path.glob` is
case-sensitive, so a filename is collected exactly when it ends in one of
these six literal extensions. -/
def globPatternExts : List String := [".jpg", ".jpeg", ".png", ".JPG", ".JPEG", ".PNG"]

/-- A directory entry matches one of the six glob patterns. -/
def matchesSomeGlob (name : String) : Bool :=
  globPatternExts.any (fun e => e.data.isSuffixOf name.data)

/-- `image_files` from `main` (lines 138–143): the union of the six glob
results, sorted.  Modelled over an abstract directory listing; the six
patterns are pairwise disjoint, so the concatenation of the glob results has
the same elements as the filter, and `sorted` makes the order independent of
the enumeration order of the directory. -/
def listImageFiles (listing : List String) : List String :=
  List.insertionSort fnameLe (listing.filter matchesSomeGlob)

/-- Formalisation of the wording of claim C8: the filename extension matches
jpg, jpeg or png case-insensitively (any mixture of upper and lower case). -/
def ciMatchesImage (name : String) : Bool :=
  [".jpg", ".jpeg", ".png"].any (fun e => e.data.isSuffixOf (name.data.map Char.toLower))

/-! Lemmas about the continuity joiner. -/

lemma combine_append_single (pd : List OcrRec) (r : OcrRec) :
    combine_text_with_continuity (pd ++ [r]) =
      combineStep (combine_text_with_continuity pd) r := by
  rw [combine_text_with_continuity, List.foldl_append]
  rfl

lemma needsSpace_of_getLast {acc : List Char} {c : Char}
    (h : acc.getLast? = some c) (hc : c ∉ sentencePunct) : needsSpace acc = true := by
  simp [needsSpace, h, hc]

lemma not_needsSpace_of_punct {acc : List Char} {c : Char}
    (h : acc.getLast? = some c) (hc : c ∈ sentencePunct) : needsSpace acc = false := by
  simp [needsSpace, h, hc]

lemma endsInPunctB_iff (t : List Char) :
    endsInPunctB t = true ↔ ∃ c, t.getLast? = some c ∧ c ∈ sentencePunct := by
  cases h : t.getLast? <;> simp [endsInPunctB, h]

/-- C1: `combine_text_with_continuity` iterates over the records in order,
strips each text, and inserts one space before appending exactly when the
accumulator is non-empty with last character outside `.!?。`; on
`["이것은 문장", "입니다"]` it yields `"이것은 문장 입니다"`. -/
theorem claim_C1 :
    (∀ (pd : List OcrRec) (r : OcrRec) (c : Char),
        (combine_text_with_continuity pd).getLast? = some c → c ∉ sentencePunct →
        combine_text_with_continuity (pd ++ [r]) =
          combine_text_with_continuity pd ++ [' '] ++ pyStrip r.text) ∧
    (∀ (pd : List OcrRec) (r : OcrRec) (c : Char),
        (combine_text_with_continuity pd).getLast? = some c → c ∈ sentencePunct →
        combine_text_with_continuity (pd ++ [r]) =
          combine_text_with_continuity pd ++ pyStrip r.text) ∧
    (∀ (pd : List OcrRec) (r : OcrRec),
        combine_text_with_continuity pd = [] →
        combine_text_with_continuity (pd ++ [r]) = pyStrip r.text) ∧
    combine_text_with_continuity
        [⟨1, "p1.jpg", "이것은 문장".data⟩, ⟨2, "p2.jpg", "입니다".data⟩] =
      "이것은 문장 입니다".data := by
  refine ⟨?_, ?_, ?_, by decide⟩
  · intro pd r c h hc
    rw [combine_append_single, combineStep, needsSpace_of_getLast h hc]
    simp
  · intro pd r c h hc
    rw [combine_append_single, combineStep, not_needsSpace_of_punct h hc]
    simp
  · intro pd r h
    rw [combine_append_single, combineStep, h]
    rfl

/-- Witness for C1 at a concrete input. -/
theorem claim_C1_witness :
    combine_text_with_continuity ([⟨1, "p1.jpg", "ab".data⟩] ++ [⟨2, "p2.jpg", "cd".data⟩]) =
      combine_text_with_continuity [⟨1, "p1.jpg", "ab".data⟩] ++ [' '] ++ pyStrip "cd".data :=
  claim_C1.1 [⟨1, "p1.jpg", "ab".data⟩] ⟨2, "p2.jpg", "cd".data⟩ 'b' (by decide) (by decide)

/-- C2 counterexample: on `["안녕하세요.", "다음 페이지"]` the code inserts no
space after the terminal `.`, so the output is not the claimed
`"안녕하세요. 다음 페이지"`. -/
theorem claim_C2_cex :
    combine_text_with_continuity
        [⟨1, "p1.jpg", "안녕하세요.".data⟩, ⟨2, "p2.jpg", "다음 페이지".data⟩] ≠
      "안녕하세요. 다음 페이지".data := by
  decide

lemma combine_go_allPunct :
    ∀ (pd : List OcrRec) (acc : List Char), needsSpace acc = false →
      (∀ r ∈ pd, endsInPunctB (pyStrip r.text) = true) →
      List.foldl combineStep acc pd = acc ++ (pd.map (fun r => pyStrip r.text)).flatten := by
  intro pd
  induction pd with
  | nil => intro acc _ _; simp
  | cons r rs ih =>
    intro acc hacc h
    have hr : endsInPunctB (pyStrip r.text) = true := h r (List.mem_cons_self r rs)
    obtain ⟨c, hc, hcp⟩ := (endsInPunctB_iff _).mp hr
    have hne : pyStrip r.text ≠ [] := by
      intro hnil
      rw [hnil] at hc
      simp at hc
    have hstep : combineStep acc r = acc ++ pyStrip r.text := by
      simp [combineStep, hacc]
    have hlast : (acc ++ pyStrip r.text).getLast? = some c := by
      rw [List.getLast?_append_of_ne_nil acc hne]
      exact hc
    have hacc2 : needsSpace (acc ++ pyStrip r.text) = false :=
      not_needsSpace_of_punct hlast hcp
    rw [List.foldl_cons, hstep, ih _ hacc2 (fun x hx => h x (List.mem_cons_of_mem r hx))]
    simp

/-- C2 amended: when every record's stripped text ends in `.`, `!`, `?` or
`。`, the joined output is the direct concatenation of the stripped texts,
with no inserted spaces; in particular `["안녕하세요.", "다음 페이지"]` yields
`"안녕하세요.다음 페이지"`. -/
theorem claim_C2_amended :
    (∀ pd : List OcrRec, (∀ r ∈ pd, endsInPunctB (pyStrip r.text) = true) →
        combine_text_with_continuity pd = (pd.map (fun r => pyStrip r.text)).flatten) ∧
    combine_text_with_continuity
        [⟨1, "p1.jpg", "안녕하세요.".data⟩, ⟨2, "p2.jpg", "다음 페이지".data⟩] =
      "안녕하세요.다음 페이지".data := by
  refine ⟨fun pd h => ?_, by decide⟩
  have := combine_go_allPunct pd [] rfl h
  simpa [combine_text_with_continuity] using this

/-- Witness for the amended C2 at a concrete input. -/
theorem claim_C2_amended_witness :
    combine_text_with_continuity [⟨1, "p1.jpg", "a.".data⟩, ⟨2, "p2.jpg", "b!".data⟩] =
      (([⟨1, "p1.jpg", "a.".data⟩, ⟨2, "p2.jpg", "b!".data⟩] : List OcrRec).map
        (fun r => pyStrip r.text)).flatten :=
  claim_C2_amended.1 _ (by decide)

/-- C3 counterexample: deleting the empty-text middle record changes the
output — `["a", "", "b"]` combines to `"a  b"` (the empty record triggers a
space of its own) while `["a", "b"]` combines to `"a b"`. -/
theorem claim_C3_cex :
    combine_text_with_continuity
        [⟨1, "p1.jpg", "a".data⟩, ⟨2, "p2.jpg", "".data⟩, ⟨3, "p3.jpg", "b".data⟩] ≠
      combine_text_with_continuity [⟨1, "p1.jpg", "a".data⟩, ⟨3, "p3.jpg", "b".data⟩] := by
  decide

/-- C3 amended: an empty-text record can be deleted without changing the
output provided the combined text of the records before it is empty or ends
in sentence-terminal punctuation (otherwise the empty record still triggers
the inserted space). -/
theorem claim_C3_amended :
    ∀ (pre post : List OcrRec) (r : OcrRec),
      pyStrip r.text = [] →
      (combine_text_with_continuity pre = [] ∨
        endsInPunctB (combine_text_with_continuity pre) = true) →
      combine_text_with_continuity (pre ++ r :: post) =
        combine_text_with_continuity (pre ++ post) := by
  intro pre post r hstrip hpre
  have hns : needsSpace (combine_text_with_continuity pre) = false := by
    rcases hpre with h | h
    · rw [h]; rfl
    · obtain ⟨c, hc, hcp⟩ := (endsInPunctB_iff _).mp h
      exact not_needsSpace_of_punct hc hcp
  have hstep : combineStep (combine_text_with_continuity pre) r =
      combine_text_with_continuity pre := by
    simp [combineStep, hns, hstrip]
  show List.foldl combineStep [] (pre ++ r :: post) = List.foldl combineStep [] (pre ++ post)
  rw [List.foldl_append, List.foldl_append, List.foldl_cons]
  exact congrArg (fun acc => List.foldl combineStep acc post) hstep

/-- Witness for the amended C3 at a concrete input (the empty record's raw
text is `" "`, which strips to the empty string). -/
theorem claim_C3_amended_witness :
    combine_text_with_continuity
        ([⟨1, "p1.jpg", "x.".data⟩] ++ (⟨2, "p2.jpg", " ".data⟩ : OcrRec) ::
          [⟨3, "p3.jpg", "y".data⟩]) =
      combine_text_with_continuity ([⟨1, "p1.jpg", "x.".data⟩] ++ [⟨3, "p3.jpg", "y".data⟩]) :=
  claim_C3_amended _ _ _ (by decide) (Or.inr (by decide))

lemma combine_eq_combineTexts (pd : List OcrRec) :
    combine_text_with_continuity pd = combineTexts (pd.map OcrRec.text) := by
  rw [combineTexts, List.foldl_map]
  rfl

/-- C4: the combined document is a deterministic function of the ordered
`text` fields alone — records differing only in `page` or `filename` fields
combine identically. -/
theorem claim_C4 :
    ∀ rs1 rs2 : List OcrRec, rs1.map OcrRec.text = rs2.map OcrRec.text →
      combine_text_with_continuity rs1 = combine_text_with_continuity rs2 := by
  intro rs1 rs2 h
  rw [combine_eq_combineTexts, combine_eq_combineTexts, h]

/-- Witness for C4: two record lists with equal texts but different pages and
filenames. -/
theorem claim_C4_witness :
    combine_text_with_continuity [⟨1, "p1.jpg", "hello".data⟩, ⟨2, "p2.jpg", "there".data⟩] =
      combine_text_with_continuity [⟨7, "x.png", "hello".data⟩, ⟨9, "y.png", "there".data⟩] :=
  claim_C4 _ _ (by decide)

/-! Lemmas about the fixed-size chunking of `translate_text`. -/

lemma pythonChunks_nil (k : Nat) : pythonChunks k [] = [] := by
  cases k with
  | zero => rfl
  | succ m =>
    simp [pythonChunks, Nat.div_eq_of_lt (Nat.lt_succ_self m)]

lemma pythonChunks_cons (k : Nat) (hk : 0 < k) (s : List Char) (hs : s ≠ []) :
    pythonChunks k s = s.take k :: pythonChunks k (s.drop k) := by
  have hn : 1 ≤ s.length := List.length_pos.mpr hs
  have hm : s.length + k - 1 = (s.length - 1) + k := by omega
  have hm2 : (s.length + k - 1) / k = (s.length - 1) / k + 1 := by
    rw [hm, Nat.add_div_right _ hk]
  have hm3 : ((s.drop k).length + k - 1) / k = (s.length - 1) / k := by
    rw [List.length_drop]
    rcases le_or_lt s.length k with h | h
    · have h1 : s.length - k = 0 := by omega
      rw [h1]
      have h2 : 0 + k - 1 < k := by omega
      have h3 : s.length - 1 < k := by omega
      rw [Nat.div_eq_of_lt h2, Nat.div_eq_of_lt h3]
    · have h1 : s.length - k + k - 1 = s.length - 1 - k + k := by omega
      rw [h1, Nat.add_div_right _ hk]
      have h2 : s.length - 1 = s.length - 1 - k + k := by omega
      rw [← Nat.add_div_right (s.length - 1 - k) hk, ← h1]
      congr 1
      omega
  rw [pythonChunks, pythonChunks, hm2, hm3, List.range_succ_eq_map]
  rw [List.map_cons, List.map_map]
  congr 1
  · simp
  · apply List.map_congr_left
    intro j _
    simp only [Function.comp_apply, List.drop_drop]
    congr 2
    rw [Nat.succ_mul]
    ring

lemma flatten_pythonChunks_bounded :
    ∀ (N : Nat) (s : List Char) (k : Nat), s.length ≤ N → 0 < k →
      (pythonChunks k s).flatten = s := by
  intro N
  induction N with
  | zero =>
    intro s k h _
    have : s = [] := List.eq_nil_of_length_eq_zero (Nat.le_zero.mp h)
    rw [this, pythonChunks_nil]
    rfl
  | succ N ih =>
    intro s k h hk
    cases hs : s with
    | nil => rw [pythonChunks_nil]; rfl
    | cons a t =>
      rw [← hs, pythonChunks_cons k hk s (by rw [hs]; exact List.cons_ne_nil a t)]
      rw [List.flatten_cons]
      rw [ih (s.drop k) k (by rw [List.length_drop]; rw [hs] at h ⊢; simp at h ⊢; omega) hk]
      exact List.take_append_drop k s

/-- C5: concatenating the fixed-size character windows used by
`translate_text` reconstructs the input string, for every positive chunk
size. -/
theorem claim_C5 :
    ∀ (s : List Char) (k : Nat), 0 < k → (pythonChunks k s).flatten = s :=
  fun s k hk => flatten_pythonChunks_bounded s.length s k le_rfl hk

/-- Witness for C5 at a concrete input. -/
theorem claim_C5_witness : (pythonChunks 3 "abcdefg".data).flatten = "abcdefg".data :=
  claim_C5 "abcdefg".data 3 (by decide)

/-! Lemmas about the translation loop. -/

lemma translateGo_all_ok (E : Type) (g : List Char → List Char) (n : Nat) :
    ∀ (cs : List (List Char)) (idx : Nat) (acc : List (List Char))
      (progs : List ℚ) (calls : List (List Char)),
      (translateGo E (fun c => Except.ok (g c)) n cs idx acc progs calls).result =
        Except.ok (joinSp (acc ++ cs.map g)) := by
  intro cs
  induction cs with
  | nil => intro idx acc progs calls; simp [translateGo]
  | cons c cs ih =>
    intro idx acc progs calls
    rw [translateGo]
    simp only []
    rw [ih]
    simp

/-- C6: with the backend modelled as a pure function `g`, `translate_text`
returns the translations of the fixed-size chunks, in chunk order, joined
with a single space: the result is `" ".join(map g chunks)`. -/
theorem claim_C6 :
    ∀ (E : Type) (g : List Char → List Char) (text : List Char),
      (translate_text E (fun c => Except.ok (g c)) text).result =
        Except.ok (joinSp ((pythonChunks chunk_size text).map g)) := by
  intro E g text
  show (translateGo E (fun c => Except.ok (g c)) (pythonChunks chunk_size text).length
      (pythonChunks chunk_size text) 0 [] [] []).result = _
  rw [translateGo_all_ok]
  simp

lemma translateGo_error_of_mem (E : Type) (f : List Char → Except E (List Char)) (n : Nat) :
    ∀ (cs : List (List Char)) (idx : Nat) (acc : List (List Char))
      (progs : List ℚ) (calls : List (List Char)) (c : List Char) (e : E),
      c ∈ cs → f c = Except.error e →
      ∃ e2, (translateGo E f n cs idx acc progs calls).result = Except.error e2 := by
  intro cs
  induction cs with
  | nil => intro idx acc progs calls c e hc _; exact absurd hc (List.not_mem_nil c)
  | cons c0 cs ih =>
    intro idx acc progs calls c e hc he
    cases hf : f c0 with
    | error e0 =>
      refine ⟨e0, ?_⟩
      rw [translateGo]
      simp only [hf]
    | ok t =>
      rcases List.mem_cons.mp hc with rfl | hmem
      · rw [hf] at he; cases he
      · obtain ⟨e2, h2⟩ := ih (idx + 1) (acc ++ [t])
          (progs ++ [(((idx + 1 : Nat) : ℚ) / (n : ℚ))]) (calls ++ [c0]) c e hmem he
        refine ⟨e2, ?_⟩
        rw [translateGo]
        simp only [hf]
        exact h2

lemma translateGo_ok_all (E : Type) (f : List Char → Except E (List Char)) (n : Nat) :
    ∀ (cs : List (List Char)) (idx : Nat) (acc : List (List Char))
      (progs : List ℚ) (calls : List (List Char)) (t : List Char),
      (translateGo E f n cs idx acc progs calls).result = Except.ok t →
      ∀ c ∈ cs, ∃ u, f c = Except.ok u := by
  intro cs
  induction cs with
  | nil => intro idx acc progs calls t _ c hc; exact absurd hc (List.not_mem_nil c)
  | cons c0 cs ih =>
    intro idx acc progs calls t ht c hc
    cases hf : f c0 with
    | error e0 =>
      rw [translateGo] at ht
      simp only [hf] at ht
      exact Except.noConfusion ht
    | ok u =>
      rcases List.mem_cons.mp hc with rfl | hmem
      · exact ⟨u, hf⟩
      · rw [translateGo] at ht
        simp only [hf] at ht
        exact ih _ _ _ _ _ ht c hmem

/-- C7: when the translation backend fails on any chunk, the whole call
comes back as that propagated failure and the translation step of `main`
writes no translation file, and the file is written only when every chunk of
the combined document was translated successfully. -/
theorem claim_C7 :
    ∀ (E : Type) (f : List Char → Except E (List Char)) (ocr_results : List OcrRec),
      ((∃ c ∈ pythonChunks chunk_size (combine_text_with_continuity ocr_results),
          ∃ e, f c = Except.error e) →
        (∃ e2, (translate_text E f (combine_text_with_continuity ocr_results)).result =
          Except.error e2) ∧
        translationStage E f ocr_results = none) ∧
      (∀ t, translationStage E f ocr_results = some t →
        ∀ c ∈ pythonChunks chunk_size (combine_text_with_continuity ocr_results),
          ∃ u, f c = Except.ok u) := by
  intro E f ocr_results
  constructor
  · rintro ⟨c, hc, e, he⟩
    obtain ⟨e2, h2⟩ := translateGo_error_of_mem E f
      (pythonChunks chunk_size (combine_text_with_continuity ocr_results)).length
      (pythonChunks chunk_size (combine_text_with_continuity ocr_results))
      0 [] [] [] c e hc he
    refine ⟨⟨e2, h2⟩, ?_⟩
    show (translateGo E f
        (pythonChunks chunk_size (combine_text_with_continuity ocr_results)).length
        (pythonChunks chunk_size (combine_text_with_continuity ocr_results))
        0 [] [] []).result.toOption = none
    rw [h2]
    rfl
  · intro t ht c hc
    have ht2 : (translate_text E f (combine_text_with_continuity ocr_results)).result.toOption =
        some t := ht
    cases hres : (translate_text E f (combine_text_with_continuity ocr_results)).result with
    | error e =>
      rw [hres] at ht2
      exact Option.noConfusion ht2
    | ok u => exact translateGo_ok_all E f _ _ 0 [] [] [] u hres c hc

/-- Witness for C7: a backend that always raises leads to no translation
file being written. -/
theorem claim_C7_witness :
    translationStage Unit (fun _ => Except.error ()) [⟨1, "p1.jpg", "hi".data⟩] = none :=
  ((claim_C7 Unit (fun _ => Except.error ()) [⟨1, "p1.jpg", "hi".data⟩]).1
    ⟨"hi".data, by decide, (), rfl⟩).2

/-- C10: on the empty string `translate_text` yields zero chunks, so it makes
no backend call, reports no progress, and returns the empty string. -/
theorem claim_C10 :
    ∀ (E : Type) (f : List Char → Except E (List Char)),
      translate_text E f [] = ⟨Except.ok [], [], []⟩ :=
  fun _ _ => rfl

/-! Lemmas about the image-file enumeration. -/

lemma lexLe_total : ∀ a b : List Char, (lexLe a b || lexLe b a) = true := by
  intro a
  induction a with
  | nil => intro b; simp [lexLe]
  | cons x xs ih =>
    intro b
    cases b with
    | nil => simp [lexLe]
    | cons y ys =>
      by_cases h1 : x < y
      · have h2 : ¬ y < x := lt_asymm h1
        simp [lexLe, h1, h2]
      · by_cases h2 : y < x
        · simp [lexLe, h1, h2]
        · simpa [lexLe, h1, h2] using ih ys

lemma lexLe_trans : ∀ a b c : List Char, lexLe a b = true → lexLe b c = true →
    lexLe a c = true := by
  intro a
  induction a with
  | nil => intro b c _ _; simp [lexLe]
  | cons x xs ih =>
    intro b c hab hbc
    cases b with
    | nil => simp [lexLe] at hab
    | cons y ys =>
      cases c with
      | nil => simp [lexLe] at hbc
      | cons z zs =>
        rw [lexLe] at hab hbc ⊢
        by_cases h1 : x < y
        · by_cases h2 : y < z
          · simp [lt_trans h1 h2]
          · by_cases h3 : z < y
            · simp [h2, h3] at hbc
            · have hyz : y = z := le_antisymm (not_lt.mp h3) (not_lt.mp h2)
              subst hyz
              simp [h1]
        · by_cases h4 : y < x
          · simp [h1, h4] at hab
          · have hxy : x = y := le_antisymm (not_lt.mp h4) (not_lt.mp h1)
            subst hxy
            simp [lt_irrefl] at hab
            by_cases h2 : x < z
            · simp [h2]
            · by_cases h3 : z < x
              · simp [h2, h3] at hbc
              · have hxz : x = z := le_antisymm (not_lt.mp h3) (not_lt.mp h2)
                subst hxz
                simp [lt_irrefl] at hbc ⊢
                exact ih ys zs hab hbc

instance : IsTotal String fnameLe :=
  ⟨fun a b => by
    have h := lexLe_total a.data b.data
    rcases Bool.or_eq_true_iff.mp h with h1 | h1
    · exact Or.inl h1
    · exact Or.inr h1⟩

instance : IsTrans String fnameLe :=
  ⟨fun a b c hab hbc => lexLe_trans a.data b.data c.data hab hbc⟩

/-- C8 counterexample: `a.Jpg` has a jpg extension up to letter case, but the
six case-sensitive glob patterns of `main` all miss it, so the produced file
sequence is empty rather than containing it. -/
theorem claim_C8_cex :
    ciMatchesImage "a.Jpg" = true ∧ listImageFiles ["a.Jpg"] = [] := by
  decide

/-- C8 amended: the produced sequence consists exactly of the listing entries
whose name ends in one of the six literal extensions `.jpg`, `.jpeg`, `.png`,
`.JPG`, `.JPEG`, `.PNG` (all-lowercase or all-uppercase only, since
`pathlib.Path.glob` is case-sensitive), sorted lexicographically by filename;
mixed-case extensions such as `a.Jpg` are not matched. -/
theorem claim_C8_amended :
    (∀ (listing : List String) (name : String),
        name ∈ listImageFiles listing ↔ name ∈ listing ∧ matchesSomeGlob name = true) ∧
    (∀ listing : List String, List.Sorted fnameLe (listImageFiles listing)) ∧
    listImageFiles ["b.png", "A.jpg", "c.JPEG", "a.Jpg", "note.txt"] =
      ["A.jpg", "b.png", "c.JPEG"] := by
  refine ⟨?_, ?_, by decide⟩
  · intro listing name
    rw [listImageFiles]
    rw [(List.perm_insertionSort fnameLe (listing.filter matchesSomeGlob)).mem_iff]
    simp [List.mem_filter]
  · intro listing
    exact List.sorted_insertionSort fnameLe (listing.filter matchesSomeGlob)

/-! Lemmas about the OCR loop. -/

lemma processGo_eq (ocr : String → List Char) (n : Nat) :
    ∀ (fs : List String) (idx : Nat) (all_text : List OcrRec) (evs : List PageEv),
      processGo ocr n fs idx all_text evs =
        (all_text ++ (List.enumFrom idx fs).map
            (fun p => OcrRec.mk (p.1 + 1) p.2 (ocr p.2)),
         evs ++ (List.enumFrom idx fs).flatMap
            (fun p => [PageEv.progress (((p.1 + 1 : Nat) : ℚ) / (n : ℚ)),
                       PageEv.extract p.2])) := by
  intro fs
  induction fs with
  | nil => intro idx all_text evs; simp [processGo]
  | cons f fs ih =>
    intro idx all_text evs
    rw [processGo, ih, List.enumFrom_cons]
    simp [List.append_assoc]

/-- C9 counterexample: on the one-page listing `["p1.jpg"]` the trace is
`[progress 1/1, extract "p1.jpg"]` — the fractional progress report comes
strictly before the page's extraction, so the claimed after-extraction
ordering fails. -/
theorem claim_C9_cex :
    ¬ reportsAfterExtraction ["p1.jpg"]
        (process_all_images (fun _ => []) ["p1.jpg"]).2 := by
  intro h
  have hevs : (process_all_images (fun _ => []) ["p1.jpg"]).2 =
      [PageEv.progress (((0 + 1 : Nat) : ℚ) / ((1 : Nat) : ℚ)), PageEv.extract "p1.jpg"] := by
    simp [process_all_images, processGo]
  obtain ⟨i, j, hij, hi, hj⟩ := h ⟨0, by decide⟩
  revert hij hi hj
  revert i j
  rw [hevs]
  intro i j hij hi hj
  fin_cases i <;> fin_cases j <;> simp_all

/-- C9 amended: `process_all_images` processes the pages strictly in order
and, for each `k` from 1 to `n`, reports the fractional progress value
`k / n` immediately before page `k`'s text extraction (the progress-bar
update on line 48 precedes the `ocr_image` call on line 49), as the full
characterisation of its records and event trace shows. -/
theorem claim_C9_amended :
    ∀ (ocr : String → List Char) (image_files : List String),
      process_all_images ocr image_files =
        ((List.enumFrom 0 image_files).map
            (fun p => OcrRec.mk (p.1 + 1) p.2 (ocr p.2)),
         (List.enumFrom 0 image_files).flatMap
            (fun p => [PageEv.progress (((p.1 + 1 : Nat) : ℚ) / (image_files.length : ℚ)),
                       PageEv.extract p.2])) := by
  intro ocr image_files
  rw [process_all_images, processGo_eq]
  simp
